import Mathlib

/-!
Verification of the FTAI memory store (`src/DB/ftai_memory.py`).

The embedded core consists of the three functions with decision logic:
`add_ftai_file` (the Ingestor), `get_context` (the Retriever) and
`inject_prompt_memory` (the ContextAssembler).  The SQLite `documents`
table is modelled as an append-only list of `Document` records inside a
`Store`; the `AUTOINCREMENT` id and the insertion timestamp are both
modelled by a strictly increasing counter (real `CURRENT_TIMESTAMP`
values are nondecreasing; the model resolves ties by insertion order,
which is the deterministic reading of `ORDER BY timestamp DESC`).
The filesystem is modelled as a partial map from paths to contents:
`os.path.exists p` is `(fs p).isSome` and reading returns the mapped
content.  Python strings are modelled as Lean `String` (length counts
code points, as Python `len` does).
-/

/-- Word characters for the regex `\w`, restricted to ASCII (letters,
digits, underscore).  The repository's tag markers are ASCII. -/
def isWordChar (c : Char) : Bool :=
  c.isAlphanum || c = '_'

/-- Splits a character list on every occurrence of `sep`; the separators
are not kept.  On the empty list the result is `[[]]`, matching Python
`"".split(sep)` returning one empty piece. -/
def splitOnChar (sep : Char) : List Char → List (List Char)
  | [] => [[]]
  | c :: cs =>
    if c = sep then [] :: splitOnChar sep cs
    else
      match splitOnChar sep cs with
      | [] => [[c]]
      | seg :: rest => (c :: seg) :: rest

/-- Maximal run of word characters at the head of a segment, as produced
by the greedy `\w+` after an `@`; `none` when the run is empty (the `@`
is not followed by a word character, so the regex has no match there). -/
def segTag (seg : List Char) : Option String :=
  match seg.takeWhile isWordChar with
  | [] => none
  | run => some (String.mk run)

/-- Embeds `re.findall(r'@(\w+)', raw)`: every `@` in the content starts
a candidate match and the greedy `\w+` captures the maximal word-character
run that follows it.  Since `@` is not a word character, the matches are
exactly the nonempty word-character prefixes of the segments that follow
each `@`, in order of appearance and without deduplication. -/
def extractTags (raw : String) : List String :=
  ((splitOnChar '@' raw.data).drop 1).filterMap segTag

/-- Embeds `','.join(ts)`. -/
def joinComma : List String → String
  | [] => ""
  | [t] => t
  | t :: ts => t ++ "," ++ joinComma ts

/-- One row of the `documents` table.  The `parsed_json` column, which
stores `json.dumps` of the length and tag-count facts, is modelled
structurally by the two numeric fields. -/
structure Document where
  id : Nat
  title : String
  ftai_type : String
  content : String
  parsed_length : Nat
  parsed_tag_count : Nat
  tags : String
  timestamp : Nat
deriving DecidableEq

/-- The `documents` table plus the row counter that models both the
`AUTOINCREMENT` id and the insertion timestamp. -/
structure Store where
  docs : List Document
  nextRow : Nat
deriving DecidableEq

/-- The store produced by `init_db`: no document rows yet. -/
def emptyStore : Store := { docs := [], nextRow := 0 }

/-- Embeds `os.path.basename`: the part of the path after the last
slash. -/
def basename (p : String) : String :=
  String.mk ((p.data.reverse.takeWhile (fun c => c ≠ '/')).reverse)

/-- Embeds `add_ftai_file`.  A missing path (`not os.path.exists`) is
reported as a value carrying the path, not a raised exception; on
success one row is inserted and a confirmation string returned.
`ftai_type` comes from `re.search(r'@(\w+)', raw)`, whose leftmost match
is the first element of `re.findall` for the same pattern. -/
def add_ftai_file (fs : String → Option String) (file_path : String) (s : Store) :
    Store × Except String String :=
  match fs file_path with
  | none => (s, Except.error ("File not found: " ++ file_path))
  | some raw =>
    let tagList := extractTags raw
    let tags := joinComma tagList
    let title := basename file_path
    let ftai_type :=
      match tagList.head? with
      | some t => "@" ++ t
      | none => "@unknown"
    let doc : Document :=
      { id := s.nextRow
        title := title
        ftai_type := ftai_type
        content := raw
        parsed_length := raw.length
        parsed_tag_count := (splitOnChar ',' tags.data).length
        tags := tags
        timestamp := s.nextRow }
    ({ docs := s.docs ++ [doc], nextRow := s.nextRow + 1 },
     Except.ok ("Imported " ++ title ++ " with tags: " ++ tags))

/-- Lowercases ASCII uppercase letters, the case folding SQLite's
default `LIKE` applies (non-ASCII characters are compared verbatim). -/
def asciiLower (c : Char) : Char :=
  if 'A' ≤ c ∧ c ≤ 'Z' then Char.ofNat (c.toNat + 32) else c

/-- Contiguous containment of `pat` inside the second list: `pat` is a
prefix of some suffix. -/
def subListOf (pat : List Char) : List Char → Bool
  | [] => pat.isEmpty
  | c :: cs => List.isPrefixOf pat (c :: cs) || subListOf pat cs

/-- Embeds the SQLite test `hay LIKE '%' || pat || '%'` for a filter tag
`pat` that is a literal pattern (free of the wildcard characters `%` and
`_` and of the quote character, which would change the interpolated SQL):
for such patterns the test holds iff `pat` occurs inside `hay` up to
ASCII case. -/
def likeContains (hay pat : String) : Bool :=
  subListOf (pat.data.map asciiLower) (hay.data.map asciiLower)

/-- Case-sensitive substring containment, the reading of "contains as a
substring" stated by the specification. -/
def containsSub (hay pat : String) : Bool :=
  subListOf pat.data hay.data

/-- Ordering used by `ORDER BY timestamp DESC`: `a` comes no later than
`b` in the output when `a` is at least as new. -/
def newer (a b : Document) : Prop := b.timestamp ≤ a.timestamp

instance : DecidableRel newer := fun a b =>
  inferInstanceAs (Decidable (b.timestamp ≤ a.timestamp))

instance : IsTotal Document newer :=
  ⟨fun a b => Nat.le_total b.timestamp a.timestamp⟩

instance : IsTrans Document newer :=
  ⟨fun _ _ _ hab hbc => Nat.le_trans hbc hab⟩

/-- The `WHERE` clause of `get_context`: no filter when the tag list is
empty, otherwise an `OR` of one `LIKE '%tag%'` test per requested tag
against the stored `tags` column. -/
def queryDocs (s : Store) (tags : List String) : List Document :=
  if tags.isEmpty then s.docs
  else s.docs.filter (fun d => tags.any (fun t => likeContains d.tags t))

/-- The `SELECT title, content` projection. -/
def projects (d : Document) : String × String := (d.title, d.content)

/-- Embeds `get_context`: filter by the optional tag list, order by
timestamp descending, apply `LIMIT`, project to `(title, content)`.
The query only reads, so the store is returned unchanged. -/
def get_context (s : Store) (tags : List String) (limit : Nat) :
    Store × List (String × String) :=
  (s, ((List.insertionSort newer (queryDocs s tags)).take limit).map projects)

/-- Renders one block of `inject_prompt_memory`:
a `"# "` header line with the title, the content, a trailing newline. -/
def assembleEntry (e : String × String) : String :=
  "# " ++ e.1 ++ "\n" ++ e.2 ++ "\n"

/-- Embeds `'sep'.join(blocks)`. -/
def joinSep (sep : String) : List String → String
  | [] => ""
  | [b] => b
  | b :: bs => b ++ sep ++ joinSep sep bs

/-- The assembly step of `inject_prompt_memory`: one block per entry,
joined with the dash separator. -/
def assembleBlocks (entries : List (String × String)) : String :=
  joinSep "\n---\n" (entries.map assembleEntry)

/-- Embeds `inject_prompt_memory`: retrieve, then assemble. -/
def inject_prompt_memory (s : Store) (tags : List String) (limit : Nat) : String :=
  assembleBlocks (get_context s tags limit).2

/-- Concrete filesystem holding one source whose only marker is
uppercase. -/
def fsA : String → Option String :=
  fun p => if p = "a.ftai" then some "@LORE alpha" else none

/-- Store after ingesting the uppercase-tagged source. -/
def stA : Store := (add_ftai_file fsA "a.ftai" emptyStore).1

/-- Concrete filesystem whose source's first marker word is `unknown`. -/
def fsU : String → Option String :=
  fun p => if p = "u.ftai" then some "@unknown topic" else none

/-- Store after ingesting the `@unknown`-marked source. -/
def stU : Store := (add_ftai_file fsU "u.ftai" emptyStore).1

/-- Concrete filesystem with a markerless source. -/
def fsN : String → Option String :=
  fun p => if p = "n.ftai" then some "no markers here" else none

/-- Empty filesystem: every path is missing. -/
def fsE : String → Option String := fun _ => none

/-- Declarative description of a retrieval result: some permutation of
the candidate pool splits into the returned part `ds` (projected to
title/content pairs) and the rest, the returned part is sorted newest
first, its length is the limit capped by the pool size, and nothing left
behind is newer than anything returned. -/
def newestFirstSpec (pool : List Document) (limit : Nat)
    (result : List (String × String)) : Prop :=
  ∃ ds rest,
    pool.Perm (ds ++ rest) ∧
    result = ds.map projects ∧
    List.Sorted newer ds ∧
    ds.length = min limit pool.length ∧
    ∀ d ∈ rest, ∀ d2 ∈ ds, d.timestamp ≤ d2.timestamp

theorem sortTake_newestFirst (pool : List Document) (limit : Nat) :
    newestFirstSpec pool limit
      (((List.insertionSort newer pool).take limit).map projects) := by
  refine ⟨(List.insertionSort newer pool).take limit,
          (List.insertionSort newer pool).drop limit, ?_, rfl, ?_, ?_, ?_⟩
  · rw [List.take_append_drop]
    exact (List.perm_insertionSort newer pool).symm
  · exact List.Pairwise.sublist (List.take_sublist _ _)
      (List.sorted_insertionSort newer pool)
  · rw [List.length_take, (List.perm_insertionSort newer pool).length_eq]
  · have hp : List.Pairwise newer
        ((List.insertionSort newer pool).take limit ++
         (List.insertionSort newer pool).drop limit) := by
      rw [List.take_append_drop]
      exact List.sorted_insertionSort newer pool
    obtain ⟨-, -, hcross⟩ := List.pairwise_append.mp hp
    intro d hd d2 hd2
    exact hcross d2 hd2 d hd

/-- C8: with an empty tag list, retrieval applies no filter and returns
the `limit` newest documents, newest first. -/
theorem C8_recent_no_filter (s : Store) (limit : Nat) :
    newestFirstSpec s.docs limit (get_context s [] limit).2 := by
  have h : queryDocs s [] = s.docs := rfl
  simpa [get_context, h] using sortTake_newestFirst s.docs limit

/-- C9: a retrieval limit of `0` yields the empty sequence under any tag
filter, the read leaves the store unchanged, and assembling no entries
yields the empty string. -/
theorem C9_limit_zero_empty (s : Store) (tags : List String) :
    (get_context s tags 0).2 = [] ∧ (get_context s tags 0).1 = s ∧
    assembleBlocks [] = "" := by
  refine ⟨?_, rfl, rfl⟩
  simp [get_context]

/-- C1 counterexample: the store's only document has tag string `LORE`,
which does not contain `lore` as a (case-sensitive) substring, yet
`get_context` with requested tag `lore` returns it — SQLite `LIKE`
compares ASCII letters case-insensitively. -/
theorem C1_substring_cx :
    (get_context stA ["lore"] 5).2 = [("a.ftai", "@LORE alpha")] ∧
    stA.docs.map Document.tags = ["LORE"] ∧
    containsSub "LORE" "lore" = false := by decide

/-- C1 (amended): for a non-empty requested tag list (tags taken as
literal patterns, free of SQL quote and LIKE wildcard characters),
retrieval returns exactly the stored documents whose tag string contains
at least one requested tag as an ASCII-case-insensitive substring,
newest first, with at most `limit` results; every returned pair projects
a stored matching document. -/
theorem C1_retrieve_like_filter (s : Store) (tags : List String) (limit : Nat)
    (hne : tags ≠ []) :
    newestFirstSpec
      (s.docs.filter (fun d => tags.any (fun t => likeContains d.tags t)))
      limit (get_context s tags limit).2 ∧
    ∀ p ∈ (get_context s tags limit).2,
      ∃ d, d ∈ s.docs ∧ tags.any (fun t => likeContains d.tags t) = true ∧
        p = projects d := by
  have hq : queryDocs s tags =
      s.docs.filter (fun d => tags.any (fun t => likeContains d.tags t)) := by
    cases tags with
    | nil => exact absurd rfl hne
    | cons a as => rfl
  constructor
  · simpa [get_context, hq] using
      sortTake_newestFirst
        (s.docs.filter (fun d => tags.any (fun t => likeContains d.tags t))) limit
  · intro p hp
    simp only [get_context] at hp
    obtain ⟨d, hd, rfl⟩ := List.mem_map.mp hp
    have hd1 : d ∈ List.insertionSort newer (queryDocs s tags) :=
      (List.take_sublist _ _).subset hd
    have hd2 : d ∈ queryDocs s tags :=
      (List.perm_insertionSort newer (queryDocs s tags)).mem_iff.mp hd1
    rw [hq] at hd2
    obtain ⟨hmem, hmatch⟩ := List.mem_filter.mp hd2
    exact ⟨d, hmem, hmatch, rfl⟩

/-- Witness: the amended retrieval theorem at the concrete uppercase
store with requested tag `lore` and limit `5`. -/
theorem C1_retrieve_like_filter_witness :
    newestFirstSpec
      (stA.docs.filter (fun d => ["lore"].any (fun t => likeContains d.tags t)))
      5 (get_context stA ["lore"] 5).2 ∧
    ∀ p ∈ (get_context stA ["lore"] 5).2,
      ∃ d, d ∈ stA.docs ∧ ["lore"].any (fun t => likeContains d.tags t) = true ∧
        p = projects d :=
  C1_retrieve_like_filter stA ["lore"] 5 (by decide)

theorem strData_append (a b : String) : (a ++ b).data = a.data ++ b.data := rfl

theorem strMk_data (t : String) : String.mk t.data = t := rfl

theorem splitOnChar_ne_nil (sep : Char) (cs : List Char) :
    splitOnChar sep cs ≠ [] := by
  induction cs with
  | nil => simp [splitOnChar]
  | cons c cs ih =>
    by_cases h : c = sep
    · simp [splitOnChar, h]
    · cases hr : splitOnChar sep cs with
      | nil => exact absurd hr ih
      | cons seg rest => simp [splitOnChar, h, hr]

theorem splitOnChar_head_pre (sep : Char) (cs : List Char) :
    ∃ seg rest, splitOnChar sep cs = seg :: rest ∧ ∃ t, seg ++ t = cs := by
  induction cs with
  | nil => exact ⟨[], [], rfl, [], rfl⟩
  | cons c cs ih =>
    by_cases h : c = sep
    · exact ⟨[], splitOnChar sep cs, by simp [splitOnChar, h], c :: cs, rfl⟩
    · obtain ⟨seg, rest, heq, t, ht⟩ := ih
      refine ⟨c :: seg, rest, ?_, t, ?_⟩
      · simp [splitOnChar, h, heq]
      · simp [ht]

theorem splitOnChar_tail_sub (sep : Char) (cs : List Char) :
    ∀ seg ∈ (splitOnChar sep cs).drop 1,
      ∃ u v, u ++ (sep :: seg) ++ v = cs := by
  induction cs with
  | nil =>
    intro seg hseg
    simp [splitOnChar] at hseg
  | cons c cs ih =>
    intro seg hseg
    by_cases h : c = sep
    · rw [show splitOnChar sep (c :: cs) = [] :: splitOnChar sep cs from by
        simp [splitOnChar, h]] at hseg
      simp only [List.drop_succ_cons, List.drop_zero] at hseg
      obtain ⟨seg0, rest0, heq0, t0, ht0⟩ := splitOnChar_head_pre sep cs
      rw [heq0] at hseg
      rcases List.mem_cons.mp hseg with h1 | h2
      · subst h1
        refine ⟨[], t0, ?_⟩
        simp [h, ht0]
      · have hm : seg ∈ (splitOnChar sep cs).drop 1 := by
          rw [heq0]
          simpa using h2
        obtain ⟨u, v, huv⟩ := ih seg hm
        exact ⟨c :: u, v, by simp [huv]⟩
    · obtain ⟨seg0, rest0, heq0, t0, ht0⟩ := splitOnChar_head_pre sep cs
      rw [show splitOnChar sep (c :: cs) = (c :: seg0) :: rest0 from by
        simp [splitOnChar, h, heq0]] at hseg
      simp only [List.drop_succ_cons, List.drop_zero] at hseg
      have hm : seg ∈ (splitOnChar sep cs).drop 1 := by
        rw [heq0]
        simpa using hseg
      obtain ⟨u, v, huv⟩ := ih seg hm
      exact ⟨c :: u, v, by simp [huv]⟩

theorem segTag_eq (seg : List Char) (t : String) (h : segTag seg = some t) :
    t.data = seg.takeWhile isWordChar ∧ t.data ≠ [] := by
  cases hw : seg.takeWhile isWordChar with
  | nil => simp [segTag, hw] at h
  | cons r rs =>
    simp only [segTag, hw] at h
    injection h with h2
    rw [← h2]
    exact ⟨rfl, by simp⟩

theorem extractTags_mem_spec (raw : String) :
    ∀ t ∈ extractTags raw,
      t.data ≠ [] ∧ t.data.all isWordChar = true ∧
      ∃ u v, u ++ ('@' :: t.data) ++ v = raw.data := by
  intro t ht
  obtain ⟨seg, hseg, hst⟩ := List.mem_filterMap.mp ht
  obtain ⟨hdata, hne⟩ := segTag_eq seg t hst
  refine ⟨hne, ?_, ?_⟩
  · rw [hdata]
    apply List.all_eq_true.mpr
    intro c hc
    exact List.mem_takeWhile_imp hc
  · obtain ⟨u, v, huv⟩ := splitOnChar_tail_sub '@' raw.data seg hseg
    have hsplit : t.data ++ seg.dropWhile isWordChar = seg := by
      rw [hdata]
      exact List.takeWhile_append_dropWhile isWordChar seg
    obtain ⟨rest, hrest⟩ : ∃ rest, seg = t.data ++ rest :=
      ⟨seg.dropWhile isWordChar, hsplit.symm⟩
    subst hrest
    refine ⟨u, rest ++ v, ?_⟩
    rw [← huv]
    simp [List.append_assoc]

/-- C2: every extracted tag is a nonempty word-character run occurring
right after an `@` in the content, extraction preserves order and keeps
duplicates (a repeated marker yields repeated entries), the claim's
sample text yields exactly `["lore"]`, and an ingested source's stored
tag string is the comma-join of its extracted tags. -/
theorem C2_tag_extraction :
    (∀ raw : String, ∀ t ∈ extractTags raw,
        t.data ≠ [] ∧ t.data.all isWordChar = true ∧
        ∃ u v, u ++ ('@' :: t.data) ++ v = raw.data) ∧
    extractTags "@lore Serena discovers the bloom" = ["lore"] ∧
    extractTags "@lore alpha @ops beta @lore gamma" = ["lore", "ops", "lore"] ∧
    (∀ (fs : String → Option String) (path : String) (s : Store) (raw : String),
        fs path = some raw →
        ∃ d, (add_ftai_file fs path s).1.docs = s.docs ++ [d] ∧
          d.tags = joinComma (extractTags raw) ∧ d.content = raw) := by
  refine ⟨extractTags_mem_spec, by decide, by decide, ?_⟩
  intro fs path s raw h
  simp only [add_ftai_file, h]
  exact ⟨_, rfl, rfl, rfl⟩

/-- Witness: the extraction theorem applied to the claim's sample text
and the ingest conjunct applied to a concrete source. -/
theorem C2_tag_extraction_witness :
    ("lore".data ≠ [] ∧ "lore".data.all isWordChar = true ∧
      ∃ u v, u ++ ('@' :: "lore".data) ++ v =
        "@lore Serena discovers the bloom".data) ∧
    ∃ d, (add_ftai_file fsA "a.ftai" emptyStore).1.docs = emptyStore.docs ++ [d] ∧
      d.tags = joinComma (extractTags "@LORE alpha") ∧ d.content = "@LORE alpha" :=
  ⟨C2_tag_extraction.1 "@lore Serena discovers the bloom" "lore" (by decide),
   C2_tag_extraction.2.2.2 fsA "a.ftai" emptyStore "@LORE alpha" (by decide)⟩

theorem noSep_split (sep : Char) (cs : List Char) (h : sep ∉ cs) :
    splitOnChar sep cs = [cs] := by
  induction cs with
  | nil => rfl
  | cons c cs ih =>
    have hc : ¬ c = sep := by
      intro he
      subst he
      exact h (List.mem_cons_self c cs)
    have hs : sep ∉ cs := fun hm => h (List.mem_cons_of_mem c hm)
    simp [splitOnChar, hc, ih hs]

theorem split_append_sep (sep : Char) (xs ys : List Char) (h : sep ∉ xs) :
    splitOnChar sep (xs ++ sep :: ys) = xs :: splitOnChar sep ys := by
  induction xs with
  | nil => simp [splitOnChar]
  | cons x xs ih =>
    have hx : ¬ x = sep := by
      intro he
      subst he
      exact h (List.mem_cons_self x xs)
    have hs : sep ∉ xs := fun hm => h (List.mem_cons_of_mem x hm)
    simp [splitOnChar, hx, ih hs]

theorem joinComma_split (ts : List String) (hne : ts ≠ [])
    (h : ∀ t ∈ ts, ',' ∉ t.data) :
    splitOnChar ',' (joinComma ts).data = ts.map String.data := by
  induction ts with
  | nil => exact absurd rfl hne
  | cons t ts ih =>
    cases ts with
    | nil =>
      simp [joinComma, noSep_split ',' t.data (h t (List.mem_cons_self t []))]
    | cons t2 ts2 =>
      have hjc : joinComma (t :: t2 :: ts2) = t ++ "," ++ joinComma (t2 :: ts2) := rfl
      have hdata : (t ++ "," ++ joinComma (t2 :: ts2)).data
          = t.data ++ ',' :: (joinComma (t2 :: ts2)).data := by
        simp [strData_append]
      rw [hjc, hdata,
        split_append_sep ',' t.data _ (h t (List.mem_cons_self t (t2 :: ts2))),
        ih (by simp) (fun x hx => h x (List.mem_cons_of_mem t hx))]
      rfl

/-- C10: extracted tags consist of word characters only, hence contain
no comma; splitting the stored comma-joined tag string on commas
recovers exactly the extracted tag sequence whenever at least one marker
exists, and the stored tag count equals the number of markers. -/
theorem C10_tag_roundtrip (raw : String) (hne : extractTags raw ≠ []) :
    (∀ t ∈ extractTags raw, ',' ∉ t.data) ∧
    (splitOnChar ',' (joinComma (extractTags raw)).data).map String.mk
      = extractTags raw ∧
    (∀ (fs : String → Option String) (path : String) (s : Store),
        fs path = some raw →
        ∃ d, (add_ftai_file fs path s).1.docs = s.docs ++ [d] ∧
          d.parsed_tag_count = (extractTags raw).length) := by
  have hnc : ∀ t ∈ extractTags raw, ',' ∉ t.data := by
    intro t ht hc
    obtain ⟨-, hall, -⟩ := extractTags_mem_spec raw t ht
    have hw := List.all_eq_true.mp hall ',' hc
    rw [show isWordChar ',' = false from by decide] at hw
    exact Bool.noConfusion hw
  have hsplit := joinComma_split (extractTags raw) hne hnc
  refine ⟨hnc, ?_, ?_⟩
  · rw [hsplit, List.map_map]
    simp [Function.comp_def, strMk_data]
  · intro fs path s h
    simp only [add_ftai_file, h]
    refine ⟨_, rfl, ?_⟩
    rw [hsplit]
    simp

/-- Witness: the round-trip theorem at a concrete single-marker source. -/
theorem C10_tag_roundtrip_witness :
    (∀ t ∈ extractTags "@LORE alpha", ',' ∉ t.data) ∧
    (splitOnChar ',' (joinComma (extractTags "@LORE alpha")).data).map String.mk
      = extractTags "@LORE alpha" ∧
    (∀ (fs : String → Option String) (path : String) (s : Store),
        fs path = some "@LORE alpha" →
        ∃ d, (add_ftai_file fs path s).1.docs = s.docs ++ [d] ∧
          d.parsed_tag_count = (extractTags "@LORE alpha").length) :=
  C10_tag_roundtrip "@LORE alpha" (by decide)

theorem strAppend_cancel (a t u : String) : a ++ t = a ++ u ↔ t = u := by
  constructor
  · intro h
    have hd : a.data ++ t.data = a.data ++ u.data := by
      rw [← strData_append, ← strData_append, h]
    have h2 := List.append_cancel_left hd
    cases t
    cases u
    exact congrArg String.mk h2
  · intro h
    rw [h]

/-- C3 counterexample: the source `@unknown topic` contains one tag
marker, yet the stored `ftai_type` is the sentinel `@unknown`, so the
sentinel does not characterize marker-free sources. -/
theorem C3_sentinel_cx :
    stU.docs.map Document.ftai_type = ["@unknown"] ∧
    extractTags "@unknown topic" = ["unknown"] := by decide

/-- C3 (amended): the stored `primaryTag` is `@` followed by the first
extracted tag when a marker exists and the sentinel `@unknown`
otherwise; consequently it equals `@unknown` iff no marker was found or
the first marker's word is exactly `unknown`. -/
theorem C3_primary_tag (fs : String → Option String) (path : String)
    (s : Store) (raw : String) (h : fs path = some raw) :
    ∃ d, (add_ftai_file fs path s).1.docs = s.docs ++ [d] ∧
      d.ftai_type = (match (extractTags raw).head? with
        | some t => "@" ++ t
        | none => "@unknown") ∧
      (d.ftai_type = "@unknown" ↔
        extractTags raw = [] ∨ (extractTags raw).head? = some "unknown") := by
  simp only [add_ftai_file, h]
  refine ⟨_, rfl, rfl, ?_⟩
  cases hx : extractTags raw with
  | nil => simp [hx]
  | cons t ts =>
    have h1 : ("@unknown" : String) = "@" ++ "unknown" := by decide
    simp only [hx, List.head?_cons]
    rw [h1, strAppend_cancel]
    simp

/-- Witness: the amended primary-tag theorem at the `@unknown`-marked
concrete source. -/
theorem C3_primary_tag_witness :
    ∃ d, (add_ftai_file fsU "u.ftai" emptyStore).1.docs = emptyStore.docs ++ [d] ∧
      d.ftai_type = (match (extractTags "@unknown topic").head? with
        | some t => "@" ++ t
        | none => "@unknown") ∧
      (d.ftai_type = "@unknown" ↔
        extractTags "@unknown topic" = [] ∨
          (extractTags "@unknown topic").head? = some "unknown") :=
  C3_primary_tag fsU "u.ftai" emptyStore "@unknown topic" (by decide)

/-- C4: ingesting a source with zero tag markers stores the sentinel
`@unknown`, an empty joined tag string, and a tag count of `1` — the
comma-split of the empty string has exactly one (empty) element. -/
theorem C4_zero_tag_quirk (fs : String → Option String) (path : String)
    (s : Store) (raw : String) (h : fs path = some raw)
    (h0 : extractTags raw = []) :
    ∃ d, (add_ftai_file fs path s).1.docs = s.docs ++ [d] ∧
      d.tags = "" ∧ d.parsed_tag_count = 1 ∧ d.ftai_type = "@unknown" := by
  simp only [add_ftai_file, h, h0]
  exact ⟨_, rfl, rfl, rfl, rfl⟩

/-- Witness: the zero-marker theorem at a concrete markerless source. -/
theorem C4_zero_tag_quirk_witness :
    ∃ d, (add_ftai_file fsN "n.ftai" emptyStore).1.docs = emptyStore.docs ++ [d] ∧
      d.tags = "" ∧ d.parsed_tag_count = 1 ∧ d.ftai_type = "@unknown" :=
  C4_zero_tag_quirk fsN "n.ftai" emptyStore "no markers here" (by decide) (by decide)

/-- C5: the store is append-only — ingest at most appends, a successful
ingest appends exactly one record, reads leave the store untouched, and
ingesting the same source twice appends two distinct records, growing
the store by exactly two. -/
theorem C5_append_only :
    (∀ (fs : String → Option String) (path : String) (s : Store),
        ∃ tail, (add_ftai_file fs path s).1.docs = s.docs ++ tail ∧
          tail.length ≤ 1) ∧
    (∀ (s : Store) (tags : List String) (limit : Nat),
        (get_context s tags limit).1 = s) ∧
    (∀ (fs : String → Option String) (path : String) (s : Store) (raw : String),
        fs path = some raw →
        ∃ d1 d2,
          (add_ftai_file fs path (add_ftai_file fs path s).1).1.docs
            = s.docs ++ [d1] ++ [d2] ∧
          d1 ≠ d2 ∧
          (add_ftai_file fs path (add_ftai_file fs path s).1).1.docs.length
            = s.docs.length + 2) := by
  refine ⟨?_, fun s tags limit => rfl, ?_⟩
  · intro fs path s
    cases h : fs path with
    | none =>
      refine ⟨[], ?_, by simp⟩
      simp [add_ftai_file, h]
    | some raw =>
      simp only [add_ftai_file, h]
      exact ⟨[_], rfl, by simp⟩
  · intro fs path s raw h
    simp only [add_ftai_file, h]
    refine ⟨_, _, rfl, ?_, ?_⟩
    · intro he
      have h2 := congrArg Document.id he
      simp at h2
    · simp

/-- Witness: the double-ingest conjunct at a concrete source. -/
theorem C5_append_only_witness :
    ∃ d1 d2,
      (add_ftai_file fsA "a.ftai" (add_ftai_file fsA "a.ftai" emptyStore).1).1.docs
        = emptyStore.docs ++ [d1] ++ [d2] ∧
      d1 ≠ d2 ∧
      (add_ftai_file fsA "a.ftai" (add_ftai_file fsA "a.ftai" emptyStore).1).1.docs.length
        = emptyStore.docs.length + 2 :=
  C5_append_only.2.2 fsA "a.ftai" emptyStore "@LORE alpha" (by decide)

/-- C6 counterexample: the error value for a missing source reads
`File not found: <path>`, not `source not found: <path>` as the
specification quotes it. -/
theorem C6_message_cx :
    (add_ftai_file fsE "missing.ftai" emptyStore).2
      = Except.error "File not found: missing.ftai" ∧
    "File not found: missing.ftai" ≠ "source not found: missing.ftai" :=
  ⟨rfl, by decide⟩

/-- C6 (amended): for a path with no readable source, ingest returns the
error value `File not found: <path>` carrying the path — reported as a
value, not a raised fault — and the store is unchanged. -/
theorem C6_missing_source (fs : String → Option String) (path : String)
    (s : Store) (h : fs path = none) :
    add_ftai_file fs path s = (s, Except.error ("File not found: " ++ path)) := by
  simp [add_ftai_file, h]

/-- Witness: the missing-source theorem on the empty filesystem. -/
theorem C6_missing_source_witness :
    add_ftai_file fsE "missing.ftai" emptyStore
      = (emptyStore, Except.error ("File not found: " ++ "missing.ftai")) :=
  C6_missing_source fsE "missing.ftai" emptyStore rfl

theorem joinSep_mem_sub (sep : String) (blocks : List String) :
    ∀ b ∈ blocks, ∃ u v, u ++ b.data ++ v = (joinSep sep blocks).data := by
  induction blocks with
  | nil =>
    intro b hb
    cases hb
  | cons b bs ih =>
    intro x hx
    cases bs with
    | nil =>
      rcases List.mem_cons.mp hx with h1 | h2
      · subst h1
        exact ⟨[], [], by simp [joinSep]⟩
      · cases h2
    | cons b2 bs2 =>
      rcases List.mem_cons.mp hx with h1 | h2
      · subst h1
        refine ⟨[], (sep ++ joinSep sep (b2 :: bs2)).data, ?_⟩
        simp [joinSep, strData_append, List.append_assoc]
      · obtain ⟨u, v, huv⟩ := ih x h2
        refine ⟨(b ++ sep).data ++ u, v, ?_⟩
        simp only [joinSep, strData_append]
        rw [← huv]
        simp [List.append_assoc]

/-- C7: `assemble` renders one block per entry in input order — a `"# "`
header line carrying the title, then the content verbatim, then a
trailing newline — and joins consecutive blocks with the `"\n---\n"`
dash separator, so the `---` line is preceded by the blank line that
ends the previous block; every entry's content occurs verbatim inside
the result (no truncation), as the two-entry sample shows line by
line. -/
theorem C7_assemble_blocks :
    (∀ e : String × String, assembleEntry e = "# " ++ e.1 ++ "\n" ++ e.2 ++ "\n") ∧
    (∀ (e1 e2 : String × String) (es : List (String × String)),
        assembleBlocks (e1 :: e2 :: es)
          = assembleEntry e1 ++ "\n---\n" ++ assembleBlocks (e2 :: es)) ∧
    (∀ entries : List (String × String), ∀ e ∈ entries,
        ∃ u v, u ++ e.2.data ++ v = (assembleBlocks entries).data) ∧
    assembleBlocks [("A", "x"), ("B", "y")] = "# A\nx\n\n---\n# B\ny\n" ∧
    (splitOnChar '\n' (assembleBlocks [("A", "x"), ("B", "y")]).data).map String.mk
      = ["# A", "x", "", "---", "# B", "y", ""] := by
  refine ⟨fun e => rfl, fun e1 e2 es => rfl, ?_, by decide, by decide⟩
  intro entries e he
  have hb : assembleEntry e ∈ entries.map assembleEntry :=
    List.mem_map_of_mem _ he
  obtain ⟨u, v, huv⟩ :=
    joinSep_mem_sub "\n---\n" (entries.map assembleEntry) (assembleEntry e) hb
  refine ⟨u ++ ("# " ++ e.1 ++ "\n").data, "\n".data ++ v, ?_⟩
  simp only [assembleBlocks]
  rw [← huv]
  simp [assembleEntry, strData_append, List.append_assoc]

/-- Witness: the verbatim-content conjunct at the two-entry sample. -/
theorem C7_assemble_blocks_witness :
    ∃ u v, u ++ (("A", "x") : String × String).2.data ++ v
      = (assembleBlocks [("A", "x"), ("B", "y")]).data :=
  C7_assemble_blocks.2.2.1 [("A", "x"), ("B", "y")] ("A", "x") (by decide)

